import Mathlib

/-!
Verification of the formatted-text document model of the word-processor
repository (src/word_processor/document.py, paragraph.py, word.py, enums.py).

The Python classes are shallowly embedded: strings become `List Char`,
Python `int` becomes `Int`, list mutation becomes explicit list rebuilding,
and the only `raise` statements in the embedded operations become `Except`
error values.  Python slice arithmetic (negative indices count from the end,
out-of-range indices clamp) is modelled by `pyIdx`/`pySlice` below.
-/

namespace WordProcessor

/-- Embedding of enums.FormattingType (enums.py). -/
inductive FormattingType where
  | bold
  | italic
  | lowerscript
  | superscript
  | title
  | heading
  | subheading
  | body
deriving DecidableEq, Repr

/-- Embedding of paragraph.Paragraph (paragraph.py): pydantic model with
`paragraph_id`, derived `start_index`/`end_index` (defaults 0/0), owned
`content`, four boolean toggles and a hierarchy value (default BODY). -/
structure Paragraph where
  paragraph_id : Int
  start_index : Int := 0
  end_index : Int := 0
  content : List Char
  bold : Bool := false
  italic : Bool := false
  lowerscript : Bool := false
  superscript : Bool := false
  hierarchy : FormattingType := FormattingType.body
deriving DecidableEq, Repr

/-- Embedding of word.stringObject (word.py). -/
structure StringObject where
  id : Option Int := none
  content : List Char
  bold : Bool := false
  italic : Bool := false
deriving DecidableEq, Repr

/-- Embedding of document.Document (document.py).  `content` models the
private `_content` list; margins are the four float fields (modelled as
rationals, default 2.5). -/
structure Document where
  margin_left : ℚ := 5/2
  margin_right : ℚ := 5/2
  margin_top : ℚ := 5/2
  margin_bottom : ℚ := 5/2
  next_paragraph_id : Int := 1
  content : List Paragraph
deriving DecidableEq, Repr

/-- The error kinds raised by the embedded operations: `indexError` for the
`raise IndexError` in `insert_at_index`, `valueError` for `list.index`
failing in `switch_style_within_paragraph`. -/
inductive DocErr where
  | indexError
  | valueError
deriving DecidableEq, Repr

/-! ### Python slice semantics -/

/-- Normalisation of a Python slice bound for a sequence of length `len`:
negative indices count from the end (clamped to 0), positive ones clamp
to `len`. -/
def pyIdx (len : Nat) (i : Int) : Nat :=
  if i < 0 then (len + i).toNat else min i.toNat len

/-- Python `s[a:b]`. -/
def pySlice (s : List Char) (a b : Int) : List Char :=
  (s.take (pyIdx s.length b)).drop (pyIdx s.length a)

/-- Python `s[:b]`. -/
def pySliceTo (s : List Char) (b : Int) : List Char :=
  s.take (pyIdx s.length b)

/-- Python `s[a:]`. -/
def pySliceFrom (s : List Char) (a : Int) : List Char :=
  s.drop (pyIdx s.length a)

/-! ### Paragraph operations (paragraph.py) -/

/-- Paragraph.insert: `content = content[:index] + text + content[index:]`. -/
def pyInsert (content text : List Char) (i : Int) : List Char :=
  pySliceTo content i ++ text ++ pySliceFrom content i

/-- Paragraph.switch_formatting: toggles the named boolean flag; any of the
four hierarchy values replaces the `hierarchy` field outright.  Note the
source toggles `lowerscript` and `superscript` independently of each other. -/
def switchFmt (p : Paragraph) (k : FormattingType) : Paragraph :=
  match k with
  | FormattingType.bold => { p with bold := !p.bold }
  | FormattingType.italic => { p with italic := !p.italic }
  | FormattingType.lowerscript => { p with lowerscript := !p.lowerscript }
  | FormattingType.superscript => { p with superscript := !p.superscript }
  | k => { p with hierarchy := k }

/-- Paragraph.can_merge_with: all five formatting fields equal. -/
def canMergeWith (p other : Paragraph) : Bool :=
  p.bold == other.bold && p.italic == other.italic
    && p.lowerscript == other.lowerscript && p.superscript == other.superscript
    && decide (p.hierarchy = other.hierarchy)

/-! ### Document structural helpers (document.py) -/

/-- Concatenation of the contents of a run list; `Document.get_text_only`
is this applied to `_content`. -/
def textOf : List Paragraph → List Char
  | [] => []
  | p :: ps => p.content ++ textOf ps

/-- Document.get_text_only. -/
def getText (d : Document) : List Char := textOf d.content

/-- Total length of the document text. -/
def totalLenOf (c : List Paragraph) : Nat := (textOf c).length

/-- Document.recalculate_start_and_end: the forward pass carrying the
running offset. -/
def recalcGo (off : Int) : List Paragraph → List Paragraph
  | [] => []
  | p :: ps =>
    { p with start_index := off, end_index := off + p.content.length - 1 }
      :: recalcGo (off + p.content.length) ps

/-- Document.recalculate_start_and_end. -/
def recalc (c : List Paragraph) : List Paragraph := recalcGo 0 c

/-- The backward merging pass of Document.join_paragraphs (the loop from
the last index toward the front, merging an adjacent pair whenever
`can_merge_with` holds; merging appends the later content to the earlier
paragraph and keeps the earlier one's fields). -/
def joinRuns : List Paragraph → List Paragraph
  | [] => []
  | p :: rest =>
    match joinRuns rest with
    | [] => [p]
    | q :: qs =>
      if canMergeWith p q then
        { p with content := p.content ++ q.content } :: qs
      else
        p :: q :: qs

/-- Document.join_paragraphs: early return on an empty list, otherwise the
backward merging pass followed by recalculate_start_and_end. -/
def joinParagraphs (c : List Paragraph) : List Paragraph :=
  if c.isEmpty then c else recalc (joinRuns c)

/-- The seed run `Paragraph(content="", paragraph_id=0)` used to initialise
`_content` and to reseed an empty document in insert_at_index. -/
def seedParagraph : Paragraph :=
  { paragraph_id := 0, content := [] }

/-- First element (with its position) satisfying a predicate: models the
`for p in self._content: if cond: target = p; break` search loops. -/
def findWithIdx? (pred : Paragraph → Bool) : List Paragraph → Option (Nat × Paragraph)
  | [] => none
  | p :: ps =>
    if pred p then some (0, p)
    else (findWithIdx? pred ps).map (fun r => (r.1 + 1, r.2))

/-- Last element (with its position) satisfying a predicate: models the
`for i, p in enumerate(...)` loop of Document.delete, which keeps
overwriting its candidate without breaking. -/
def findLastWithIdx? (pred : Paragraph → Bool) : List Paragraph → Option (Nat × Paragraph)
  | [] => none
  | p :: ps =>
    match findLastWithIdx? pred ps with
    | some r => some (r.1 + 1, r.2)
    | none => if pred p then some (0, p) else none

/-- Python `list.insert(n, x)` (clamping past-the-end positions to append). -/
def listInsertAt : Nat → Paragraph → List Paragraph → List Paragraph
  | 0, x, l => x :: l
  | _ + 1, x, [] => [x]
  | n + 1, x, a :: l => a :: listInsertAt n x l

/-- Python `del l[a:b]`. -/
def listDelRange (a b : Nat) (l : List Paragraph) : List Paragraph :=
  l.take a ++ l.drop b

/-! ### Document operations (document.py) -/

/-- Body of Document.insert_at_index once `_content` has been reseeded if
empty (`c0` is the current run list): finds the first run with
`start_index <= index <= end_index + 1` and splices the text at the
translated local offset `index - start_index`; when no run qualifies, clamps
to the end of the last run (raising IndexError only when there is no run at
all); then join_paragraphs and recalculate_start_and_end. -/
def insertCore (d : Document) (c0 : List Paragraph) (text : List Char) (index : Int) :
    Except DocErr Document :=
  match findWithIdx?
      (fun p => decide (p.start_index ≤ index) && decide (index ≤ p.end_index + 1)) c0 with
  | some (ti, tp) =>
    Except.ok { d with content := recalc (joinParagraphs
      (c0.set ti { tp with content := pyInsert tp.content text (index - tp.start_index) })) }
  | none =>
    match c0.getLast? with
    | none => Except.error DocErr.indexError
    | some tp =>
      Except.ok { d with content := recalc (joinParagraphs
        (c0.set (c0.length - 1)
          { tp with content := pyInsert tp.content text (tp.end_index + 1 - tp.start_index) })) }

/-- Document.insert_at_index: reseeds an empty document first. -/
def insertAtIndexE (d : Document) (text : List Char) (index : Int) :
    Except DocErr Document :=
  insertCore d (if d.content.isEmpty then [seedParagraph] else d.content) text index

/-- Document.delete: silent early return when `start_index > end_index` or
when no run contains the start; otherwise truncates the boundary run(s),
drops the runs strictly between them, and re-establishes the indices. -/
def deleteD (d : Document) (s e : Int) : Document :=
  if s > e then d
  else
    match findLastWithIdx?
        (fun p => decide (p.start_index ≤ s) && decide (s ≤ p.end_index + 1)) d.content with
    | none => d
    | some (si, sp) =>
      let epair :=
        match findLastWithIdx?
            (fun p => decide (p.start_index ≤ e) && decide (e ≤ p.end_index + 1)) d.content with
        | some r => r
        | none => (d.content.length - 1, d.content.getLastD sp)
      let ei := epair.1
      let ep := epair.2
      let rs := s - sp.start_index
      let re := e - ep.start_index
      let c' :=
        if si = ei then
          d.content.set si
            { sp with content := pySliceTo sp.content rs ++ pySliceFrom sp.content (re + 1) }
        else
          let c1 := d.content.set si { sp with content := pySliceTo sp.content rs }
          let c2 := c1.set ei { ep with content := pySliceFrom ep.content (re + 1) }
          if si + 1 < ei then listDelRange (si + 1) ei c2 else c2
      { d with content := recalc (joinParagraphs c') }

/-- Document.switch_style_within_paragraph: three-way split of run `p` at the
(already clipped) bounds `cs`/`ce`.  Both fragment runs are created through
create_paragraph (consuming two fresh ids even when a fragment is empty and
discarded); the code inserts the kept prefix at `index + 1` — i.e. AFTER the
run being split — and the suffix right after it, then rewrites `p` in place
to the clipped middle and toggles its formatting. -/
def switchStyleWithinParagraph (c : List Paragraph) (nid : Int) (p : Paragraph)
    (cs ce : Int) (k : FormattingType) : Except DocErr (List Paragraph × Int) :=
  match c.findIdx? (fun q => decide (q = p)) with
  | none => Except.error DocErr.valueError
  | some i =>
    let pStart : Paragraph :=
      { paragraph_id := nid,
        content := pySliceTo p.content (max (cs - p.start_index) 0),
        bold := p.bold, italic := p.italic, lowerscript := p.lowerscript,
        superscript := p.superscript, hierarchy := p.hierarchy }
    let i1 := if pStart.content.isEmpty then i else i + 1
    let c1 := if pStart.content.isEmpty then c else listInsertAt i1 pStart c
    let pEnd : Paragraph :=
      { paragraph_id := nid + 1,
        content := pySliceFrom p.content ((p.content.length : Int) - max (p.end_index - ce) 0),
        bold := p.bold, italic := p.italic, lowerscript := p.lowerscript,
        superscript := p.superscript, hierarchy := p.hierarchy }
    let c2 := if pEnd.content.isEmpty then c1 else listInsertAt (i1 + 1) pEnd c1
    let mid := pySlice p.content (max (cs - p.start_index) 0)
        ((p.content.length : Int) - max (p.end_index - ce) 0)
    Except.ok (c2.set i (switchFmt { p with content := mid } k), nid + 2)

/-- The `for p in copy_content` loop of Document.switch_formatting: iterates
over the run list as it was before the operation while threading the evolving
`_content` and id counter.  A run is processed only when it contains the
global start or contains the global end. -/
def switchFold (s e : Int) (k : FormattingType) :
    List Paragraph → List Paragraph × Int → Except DocErr (List Paragraph × Int)
  | [], acc => Except.ok acc
  | p :: ps, acc =>
    if (p.start_index ≤ s ∧ s ≤ p.end_index) ∨ (e ≤ p.end_index ∧ p.start_index ≤ e) then
      match switchStyleWithinParagraph acc.1 acc.2 p (max s p.start_index)
          (min e p.end_index) k with
      | Except.error err => Except.error err
      | Except.ok acc' => switchFold s e k ps acc'
    else switchFold s e k ps acc

/-- Document.switch_formatting. -/
def switchFormattingE (d : Document) (s e : Int) (k : FormattingType) :
    Except DocErr Document :=
  match switchFold s e k d.content (d.content, d.next_paragraph_id) with
  | Except.error err => Except.error err
  | Except.ok acc =>
    Except.ok { d with next_paragraph_id := acc.2,
                       content := recalc (joinParagraphs acc.1) }

/-- Document.load (its pure core, given the parsed snapshot): replaces
`_content` with the snapshot records verbatim — the persisted
`start_index`/`end_index` fields are kept as stored, nothing is recomputed. -/
def loadSnapshot (d : Document) (snap : List Paragraph) : Document :=
  { d with content := snap }

/-- Document.save (its pure core): the run records written to the snapshot —
`model_dump` of each element of `_content`, in order, with no coalescing
applied. -/
def saveSnapshot (d : Document) : List Paragraph := d.content

/-! ### Searching (word.py and document.py) -/

/-- Whether `t` occurs in `s` starting at position `i`. -/
def occursAtB (s t : List Char) (i : Nat) : Bool :=
  decide ((s.drop i).take t.length = t)

/-- Python `s.find(t, start, stop)` for normalised bounds: the least
position `i ≥ start` where `t` occurs and the match ends by `stop`. -/
def pyStrFind (s t : List Char) (start stop : Nat) : Option Nat :=
  (List.range' start (s.length + 1 - start)).find?
    (fun i => occursAtB s t i && decide (i + t.length ≤ stop))

/-- Python `s.find(t, a, b)` with slice-style normalisation of the bounds. -/
def pyStrFindI (s t : List Char) (a b : Int) : Option Nat :=
  pyStrFind s t (pyIdx s.length a) (pyIdx s.length b)

/-- The `while True` scan of stringObject.find: record each hit and resume at
`pos + 1` (fuel bounds the iteration count; positions strictly increase, so
`s.length + 1` steps always suffice). -/
def findAux (s t : List Char) : Nat → Nat → List Nat
  | 0, _ => []
  | fuel + 1, start =>
    match pyStrFind s t start s.length with
    | none => []
    | some pos => pos :: findAux s t fuel (pos + 1)

/-- stringObject.find (word.py). -/
def StringObject.find (so : StringObject) (text : List Char) : List Nat :=
  if text.isEmpty then [] else findAux so.content text (so.content.length + 1) 0

/-- The `while current_pos < end_index` scan of Document.find_in_body:
bounded Python find, record `(pos, pos + len - 1)`, resume at `pos + 1`. -/
def fibLoop (s t : List Char) (endN : Int) : Nat → Int → List (Nat × Nat)
  | 0, _ => []
  | fuel + 1, cur =>
    if cur < endN then
      match pyStrFindI s t cur endN with
      | none => []
      | some pos => (pos, pos + t.length - 1) :: fibLoop s t endN fuel (pos + 1)
    else []

/-- Document.find_in_body: empty needle yields no matches; `end_index = -1`
means end of the full text. -/
def findInBody (d : Document) (t : List Char) (a b : Int) : List (Nat × Nat) :=
  if t.isEmpty then []
  else
    let s := getText d
    let endN : Int := if b = -1 then (s.length : Int) else b
    fibLoop s t endN (s.length + 2) a

/-! ### Stated invariants -/

/-- Adjacency condition of the partition invariant:
`run[i].end_index + 1 == run[i+1].start_index`. -/
def adjOkB : List Paragraph → Bool
  | p :: q :: r => (p.end_index + 1 == q.start_index) && adjOkB (q :: r)
  | _ => true

/-- The `end_index` of the last run (−1 when there is none). -/
def lastEndOf : List Paragraph → Int
  | [] => -1
  | [p] => p.end_index
  | _ :: q :: r => lastEndOf (q :: r)

/-- The partition invariant exactly as the specification states it:
`run[0].start_index == 0`, adjacent runs chain, and the last run's
`end_index` equals `totalLength - 1`. -/
def partitionInvB (c : List Paragraph) : Bool :=
  match c with
  | [] => true
  | p :: _ =>
    (p.start_index == 0) && adjOkB c && (lastEndOf c == (totalLenOf c : Int) - 1)

/-- Whether some adjacent pair of runs has identical formatting
(i.e. coalescing would merge them). -/
def hasAdjacentMergeableB : List Paragraph → Bool
  | p :: q :: r => canMergeWith p q || hasAdjacentMergeableB (q :: r)
  | _ => false

/-- Per-character bold flags of the document, in text order. -/
def perCharBold (d : Document) : List Bool :=
  (d.content.map (fun p => List.replicate p.content.length p.bold)).flatten

/-! ### Concrete fixtures used by witnesses and counterexamples -/

/-- Paragraph literal helper: id, start, end, content, bold flag. -/
def mkPara (pid si ei : Int) (cs : String) (b : Bool) : Paragraph :=
  { paragraph_id := pid, start_index := si, end_index := ei,
    content := cs.toList, bold := b }

/-- Document literal helper (default margins). -/
def mkDoc (ps : List Paragraph) (nid : Int) : Document :=
  { next_paragraph_id := nid, content := ps }

/-- A one-run document holding "abc". -/
def docA : Document := mkDoc [mkPara 0 0 2 "abc" false] 1

/-- A three-run document "a"(bold) "b"(plain) "c"(bold), well formed and
coalesced; reachable, e.g. by loading it as a snapshot. -/
def doc3 : Document :=
  mkDoc [mkPara 0 0 0 "a" true, mkPara 1 1 1 "b" false, mkPara 2 2 2 "c" true] 3

/-- The specification's own scenario document: one plain run "Hello world". -/
def docHW : Document := mkDoc [mkPara 0 0 10 "Hello world" false] 1

/-! ### Structural lemmas: recalculation establishes the partition invariant -/

theorem textOf_append (a b : List Paragraph) : textOf (a ++ b) = textOf a ++ textOf b := by
  induction a with
  | nil => rfl
  | cons p ps ih => simp [textOf, ih]

theorem textOf_recalcGo (c : List Paragraph) : ∀ off, textOf (recalcGo off c) = textOf c := by
  induction c with
  | nil => intro off; rfl
  | cons p ps ih => intro off; simp [recalcGo, textOf, ih]

theorem textOf_recalc (c : List Paragraph) : textOf (recalc c) = textOf c :=
  textOf_recalcGo c 0

theorem totalLenOf_recalcGo (c : List Paragraph) (off : Int) :
    totalLenOf (recalcGo off c) = totalLenOf c := by
  simp [totalLenOf, textOf_recalcGo]

theorem textOf_joinRuns (c : List Paragraph) : textOf (joinRuns c) = textOf c := by
  induction c with
  | nil => rfl
  | cons p ps ih =>
    simp only [joinRuns]
    cases h : joinRuns ps with
    | nil => simp [textOf, ← ih, h]
    | cons q qs =>
      rw [h] at ih
      by_cases hm : canMergeWith p q = true
      · simp [hm, textOf, ← ih, List.append_assoc]
      · simp [hm, textOf, ← ih]

theorem textOf_joinParagraphs (c : List Paragraph) :
    textOf (joinParagraphs c) = textOf c := by
  unfold joinParagraphs
  by_cases h : c.isEmpty
  · simp [h]
  · simp [h, recalc, textOf_recalcGo, textOf_joinRuns]

theorem adjOkB_recalcGo (c : List Paragraph) : ∀ off, adjOkB (recalcGo off c) = true := by
  induction c with
  | nil => intro off; rfl
  | cons p ps ih =>
    intro off
    cases ps with
    | nil => rfl
    | cons q qs =>
      have h2 := ih (off + p.content.length)
      simp only [recalcGo] at h2 ⊢
      simp only [adjOkB, Bool.and_eq_true, beq_iff_eq] at h2 ⊢
      refine ⟨by ring, ?_⟩
      simpa using h2

theorem lastEndOf_recalcGo (c : List Paragraph) :
    ∀ off, c ≠ [] → lastEndOf (recalcGo off c) = off + totalLenOf c - 1 := by
  induction c with
  | nil => intro off h; exact absurd rfl h
  | cons p ps ih =>
    intro off _
    cases ps with
    | nil =>
      simp [recalcGo, lastEndOf, totalLenOf, textOf]
    | cons q qs =>
      have h2 := ih (off + p.content.length) (by simp)
      simp only [recalcGo] at h2 ⊢
      simp only [lastEndOf] at h2 ⊢
      rw [h2]
      simp only [totalLenOf, textOf, List.length_append]
      push_cast
      ring

theorem recalcGo_start_mem (c : List Paragraph) :
    ∀ off, ∀ p ∈ recalcGo off c,
      off ≤ p.start_index ∧ p.end_index = p.start_index + p.content.length - 1
        ∧ p.end_index < off + totalLenOf c := by
  induction c with
  | nil => intro off p hp; simp [recalcGo] at hp
  | cons q qs ih =>
    intro off p hp
    simp only [recalcGo, List.mem_cons] at hp
    rcases hp with rfl | hp
    · refine ⟨le_refl _, rfl, ?_⟩
      simp only [totalLenOf, textOf, List.length_append]
      push_cast
      omega
    · obtain ⟨h1, h2, h3⟩ := ih (off + q.content.length) p hp
      refine ⟨by omega, h2, ?_⟩
      simp only [totalLenOf, textOf, List.length_append] at h3 ⊢
      push_cast at h3 ⊢
      omega

theorem partitionInvB_recalc (c : List Paragraph) : partitionInvB (recalc c) = true := by
  cases c with
  | nil => rfl
  | cons p ps =>
    have hadj := adjOkB_recalcGo (p :: ps) 0
    have hlast := lastEndOf_recalcGo (p :: ps) 0 (by simp)
    have hlen := totalLenOf_recalcGo (p :: ps) 0
    show partitionInvB (recalcGo 0 (p :: ps)) = true
    obtain ⟨x, xs, hx, hhead⟩ :
        ∃ x xs, recalcGo 0 (p :: ps) = x :: xs ∧ x.start_index = 0 :=
      ⟨_, _, rfl, rfl⟩
    rw [hx] at hadj hlast hlen ⊢
    simp only [partitionInvB, Bool.and_eq_true, beq_iff_eq]
    refine ⟨⟨hhead, hadj⟩, ?_⟩
    rw [hlast, hlen]
    ring

/-! ### Shape of the mutating operations -/

theorem partitionInvB_insertCore {d : Document} {c0 : List Paragraph} {t : List Char}
    {i : Int} {r : Document}
    (h : insertCore d c0 t i = Except.ok r) : partitionInvB r.content = true := by
  unfold insertCore at h
  split at h
  · injection h with h
    rw [← h]
    exact partitionInvB_recalc _
  · split at h
    · exact Except.noConfusion h
    · injection h with h
      rw [← h]
      exact partitionInvB_recalc _

theorem partitionInvB_insert {d : Document} {t : List Char} {i : Int} {r : Document}
    (h : insertAtIndexE d t i = Except.ok r) : partitionInvB r.content = true :=
  partitionInvB_insertCore h

theorem partitionInvB_switch {d : Document} {s e : Int} {k : FormattingType} {r : Document}
    (h : switchFormattingE d s e k = Except.ok r) : partitionInvB r.content = true := by
  unfold switchFormattingE at h
  split at h
  · exact absurd h (by simp)
  · injection h with h
    rw [← h]
    exact partitionInvB_recalc _

theorem partitionInvB_delete (d : Document) (s e : Int)
    (hd : partitionInvB d.content = true) :
    partitionInvB (deleteD d s e).content = true := by
  unfold deleteD
  split
  · exact hd
  · split
    · exact hd
    · exact partitionInvB_recalc _

/-- Processing is skipped for every run that contains neither endpoint, so
the fold is the identity on such a list. -/
theorem switchFold_skip (s e : Int) (k : FormattingType) (l : List Paragraph)
    (acc : List Paragraph × Int)
    (h : ∀ p ∈ l,
      ¬((p.start_index ≤ s ∧ s ≤ p.end_index) ∨ (e ≤ p.end_index ∧ p.start_index ≤ e))) :
    switchFold s e k l acc = Except.ok acc := by
  induction l with
  | nil => rfl
  | cons p ps ih =>
    simp only [switchFold]
    rw [if_neg (h p (by simp))]
    exact ih (fun q hq => h q (by simp [hq]))

/-! ### Lemmas about the target search and the last run -/

theorem findWithIdx?_eq_none {pred : Paragraph → Bool} {l : List Paragraph}
    (h : ∀ p ∈ l, pred p = false) : findWithIdx? pred l = none := by
  induction l with
  | nil => rfl
  | cons p ps ih =>
    simp only [findWithIdx?]
    rw [h p (by simp), ih (fun q hq => h q (by simp [hq]))]
    rfl

theorem set_last (l : List Paragraph) (x : Paragraph) (h : l ≠ []) :
    l.set (l.length - 1) x = l.dropLast ++ [x] := by
  induction l with
  | nil => exact absurd rfl h
  | cons a l ih =>
    cases l with
    | nil => rfl
    | cons b m =>
      have h2 : (a :: b :: m).length - 1 = ((b :: m).length - 1) + 1 := by
        simp
      rw [h2]
      have h3 : (a :: b :: m).set (((b :: m).length - 1) + 1) x
          = a :: (b :: m).set ((b :: m).length - 1) x := rfl
      rw [h3, ih (by simp)]
      rfl

theorem mem_rec_facts {d : Document} (hrec : recalc d.content = d.content)
    {p : Paragraph} (hp : p ∈ d.content) :
    0 ≤ p.start_index ∧ p.end_index = p.start_index + p.content.length - 1
      ∧ p.end_index < (totalLenOf d.content : Int) := by
  have hp' : p ∈ recalcGo 0 d.content := by
    show p ∈ recalc d.content
    rw [hrec]; exact hp
  obtain ⟨h1, h2, h3⟩ := recalcGo_start_mem d.content 0 p hp'
  exact ⟨h1, h2, by omega⟩

theorem pyInsert_at_length (c t : List Char) :
    pyInsert c t (c.length : Int) = c ++ t := by
  unfold pyInsert pySliceTo pySliceFrom pyIdx
  rw [if_neg (by omega)]
  simp

/-! ### Lemmas about the find scans -/

theorem occA_le {s t : List Char} (ht : t ≠ []) {i : Nat}
    (h : occursAtB s t i = true) : i + t.length ≤ s.length := by
  unfold occursAtB at h
  have h' := of_decide_eq_true h
  have hlen : t.length = min t.length (s.drop i).length := by
    conv_lhs => rw [← h']
    rw [List.length_take]
  rw [List.length_drop] at hlen
  have htpos : 0 < t.length := List.length_pos.mpr ht
  omega

theorem occA_ge {s t : List Char} (ht : t ≠ []) {i : Nat} (hge : s.length ≤ i) :
    occursAtB s t i = false := by
  cases hb : occursAtB s t i with
  | false => rfl
  | true =>
    have hle := occA_le ht hb
    have htpos : 0 < t.length := List.length_pos.mpr ht
    omega

theorem find?_range'_none {p : Nat → Bool} {st n : Nat}
    (h : (List.range' st n).find? p = none) :
    ∀ i, st ≤ i → i < st + n → p i = false := by
  intro i h1 h2
  have := List.find?_eq_none.mp h i (List.mem_range'_1.mpr ⟨h1, h2⟩)
  simpa using this

theorem find?_range'_some {p : Nat → Bool} : ∀ {n st a : Nat},
    (List.range' st n).find? p = some a →
    st ≤ a ∧ a < st + n ∧ p a = true ∧ ∀ j, st ≤ j → j < a → p j = false := by
  intro n
  induction n with
  | zero =>
    intro st a h
    simp [List.range'] at h
  | succ n ih =>
    intro st a h
    rw [List.range'_succ] at h
    by_cases hp : p st = true
    · rw [List.find?_cons_of_pos _ hp] at h
      injection h with h
      subst h
      exact ⟨le_refl _, by omega, hp, fun j h1 h2 => absurd h1 (by omega)⟩
    · rw [List.find?_cons_of_neg _ hp] at h
      obtain ⟨h1, h2, h3, h4⟩ := ih h
      refine ⟨by omega, by omega, h3, ?_⟩
      intro j hj1 hj2
      rcases Nat.eq_or_lt_of_le hj1 with heq | hlt
      · rw [← heq]
        simpa using hp
      · exact h4 j hlt hj2

theorem pyStrFind_none {s t : List Char} (ht : t ≠ []) {st : Nat}
    (h : pyStrFind s t st s.length = none) :
    ∀ i, st ≤ i → occursAtB s t i = false := by
  intro i hi
  by_cases hge : s.length ≤ i
  · exact occA_ge ht hge
  · unfold pyStrFind at h
    have hcond := find?_range'_none h i hi (by omega)
    cases hb : occursAtB s t i with
    | false => rfl
    | true =>
      have hle := occA_le ht hb
      rw [hb, decide_eq_true hle] at hcond
      exact Bool.noConfusion hcond

theorem pyStrFind_some {s t : List Char} (ht : t ≠ []) {st a : Nat}
    (h : pyStrFind s t st s.length = some a) :
    st ≤ a ∧ occursAtB s t a = true ∧ ∀ j, st ≤ j → j < a → occursAtB s t j = false := by
  unfold pyStrFind at h
  obtain ⟨h1, h2, h3, h4⟩ := find?_range'_some h
  rw [Bool.and_eq_true] at h3
  refine ⟨h1, h3.1, ?_⟩
  intro j hj1 hj2
  cases hb : occursAtB s t j with
  | false => rfl
  | true =>
    have hle := occA_le ht hb
    have hj := h4 j hj1 hj2
    rw [hb, decide_eq_true hle] at hj
    exact Bool.noConfusion hj

theorem pyStrFind_ge {s t : List Char} (ht : t ≠ []) {st : Nat} (hge : s.length ≤ st) :
    pyStrFind s t st s.length = none := by
  unfold pyStrFind
  rw [List.find?_eq_none]
  intro x hx
  rw [List.mem_range'_1] at hx
  have hocc : occursAtB s t x = false := occA_ge ht (by omega)
  simp [hocc]

theorem findAux_succ (s t : List Char) (fuel st : Nat) :
    findAux s t (fuel + 1) st = match pyStrFind s t st s.length with
      | none => []
      | some pos => pos :: findAux s t fuel (pos + 1) := rfl

theorem fibLoop_succ (s t : List Char) (endN : Int) (fuel : Nat) (cur : Int) :
    fibLoop s t endN (fuel + 1) cur = if cur < endN then
      match pyStrFindI s t cur endN with
      | none => []
      | some pos => (pos, pos + t.length - 1) :: fibLoop s t endN fuel (pos + 1)
    else [] := rfl

theorem findAux_mem {s t : List Char} (ht : t ≠ []) :
    ∀ fuel st, s.length + 1 ≤ fuel + st →
      ∀ i, i ∈ findAux s t fuel st ↔ (st ≤ i ∧ occursAtB s t i = true) := by
  intro fuel
  induction fuel with
  | zero =>
    intro st hf i
    constructor
    · intro h
      simp [findAux] at h
    · rintro ⟨h1, h2⟩
      have hle := occA_le ht h2
      have htpos : 0 < t.length := List.length_pos.mpr ht
      omega
  | succ fuel ih =>
    intro st hf i
    cases hfind : pyStrFind s t st s.length with
    | none =>
      have hstep : findAux s t (fuel + 1) st = [] := by
        rw [findAux_succ, hfind]
      rw [hstep]
      constructor
      · intro h
        simp at h
      · rintro ⟨h1, h2⟩
        rw [pyStrFind_none ht hfind i h1] at h2
        exact Bool.noConfusion h2
    | some pos =>
      have hstep : findAux s t (fuel + 1) st = pos :: findAux s t fuel (pos + 1) := by
        rw [findAux_succ, hfind]
      obtain ⟨hp1, hp2, hp3⟩ := pyStrFind_some ht hfind
      have hposle : pos + t.length ≤ s.length := occA_le ht hp2
      rw [hstep, List.mem_cons, ih (pos + 1) (by omega) i]
      constructor
      · rintro (rfl | ⟨h1, h2⟩)
        · exact ⟨hp1, hp2⟩
        · exact ⟨by omega, h2⟩
      · rintro ⟨h1, h2⟩
        by_cases heq : i = pos
        · exact Or.inl heq
        · right
          refine ⟨?_, h2⟩
          by_contra hlt
          push_neg at hlt
          have hfalse := hp3 i h1 (by omega)
          rw [hfalse] at h2
          exact Bool.noConfusion h2

theorem sfind_mem {so : StringObject} {t : List Char} (ht : t ≠ []) (i : Nat) :
    i ∈ so.find t ↔ occursAtB so.content t i = true := by
  unfold StringObject.find
  have hemp : t.isEmpty = false := by
    cases t with
    | nil => exact absurd rfl ht
    | cons a l => rfl
  simp only [hemp, Bool.false_eq_true, if_false]
  rw [findAux_mem ht (so.content.length + 1) 0 (by omega) i]
  simp

theorem fibLoop_eq {s t : List Char} (ht : t ≠ []) :
    ∀ fuel (cur : Int), 0 ≤ cur →
      fibLoop s t (s.length : Int) fuel cur
        = (findAux s t fuel cur.toNat).map (fun i => (i, i + t.length - 1)) := by
  intro fuel
  induction fuel with
  | zero => intro cur hc; rfl
  | succ fuel ih =>
    intro cur hc
    by_cases hlt : cur < (s.length : Int)
    · have hstep : fibLoop s t (s.length : Int) (fuel + 1) cur
          = match pyStrFindI s t cur (s.length : Int) with
            | none => []
            | some pos => (pos, pos + t.length - 1) :: fibLoop s t (s.length : Int) fuel (pos + 1) := by
        rw [fibLoop_succ, if_pos hlt]
      have hIeq : pyStrFindI s t cur (s.length : Int) = pyStrFind s t cur.toNat s.length := by
        unfold pyStrFindI pyIdx
        rw [if_neg (by omega), if_neg (by omega)]
        congr 1
        · omega
        · simp
      rw [hstep, hIeq]
      cases hfind : pyStrFind s t cur.toNat s.length with
      | none =>
        have hstep2 : findAux s t (fuel + 1) cur.toNat = [] := by
          rw [findAux_succ, hfind]
        rw [hstep2]
        rfl
      | some pos =>
        have hstep2 : findAux s t (fuel + 1) cur.toNat = pos :: findAux s t fuel (pos + 1) := by
          rw [findAux_succ, hfind]
        rw [hstep2]
        dsimp only
        have htn : ((pos : Int) + 1).toNat = pos + 1 := by omega
        rw [List.map_cons, ih ((pos : Int) + 1) (by omega), htn]
    · have hstep : fibLoop s t (s.length : Int) (fuel + 1) cur = [] := by
        rw [fibLoop_succ, if_neg hlt]
      have hstep2 : findAux s t (fuel + 1) cur.toNat = [] := by
        rw [findAux_succ, pyStrFind_ge ht (by omega)]
      rw [hstep, hstep2]
      rfl

/-! ### Claim theorems -/

/-- C1 (code_bug evaluation): on the document "a"(bold) "b"(plain) "c"(bold),
switchFormatting(0, 2, BOLD) leaves the middle run untouched because the
overlap test in Document.switch_formatting only fires for runs containing
one of the two endpoints; the resulting per-character bold flags are
[false, false, false], not the [false, true, false] the claim requires. -/
theorem c1_code_eval :
    (switchFormattingE doc3 0 2 FormattingType.bold).map perCharBold
        = Except.ok [false, false, false]
      ∧ ([false, false, false] : List Bool) ≠ [false, true, false] :=
  ⟨rfl, by decide⟩

/-- The stringObject holding "aaa". -/
def soAAA : StringObject := { content := "aaa".toList }

/-- A one-run document holding "aaa". -/
def docAAA : Document := mkDoc [mkPara 0 0 2 "aaa" false] 1

/-- C2 (counterexample): searching "aa" in "aaa" reports BOTH offsets 0 and 1
(the scan resumes at match start + 1, not after the match end), refuting the
claim that only offset 0 is reported; find_in_body behaves the same way. -/
theorem c2_counterexample :
    StringObject.find soAAA ("aa".toList) = [0, 1]
      ∧ ([0, 1] : List Nat) ≠ [0]
      ∧ findInBody docAAA ("aa".toList) 0 (-1) = [(0, 1), (1, 2)] :=
  ⟨rfl, by decide, rfl⟩

/-- C2 (amended): both scans are left-to-right but resume at each match's
start + 1, so overlapping occurrences ARE reported: for a non-empty needle
the reported positions are exactly all its occurrence positions (e.g. "aa"
in "aaa" reports 0 and 1), find_in_body pairing each with the inclusive
match end; an empty needle yields no matches. -/
theorem c2_amended (so : StringObject) (d : Document) (t : List Char) (ht : t ≠ [])
    (i j : Nat) :
    (i ∈ so.find t ↔ occursAtB so.content t i = true)
    ∧ ((i, j) ∈ findInBody d t 0 (-1)
        ↔ (occursAtB (getText d) t i = true ∧ j = i + t.length - 1))
    ∧ StringObject.find so [] = []
    ∧ findInBody d [] 0 (-1) = [] := by
  refine ⟨sfind_mem ht i, ?_, rfl, rfl⟩
  unfold findInBody
  have hemp : t.isEmpty = false := by
    cases t with
    | nil => exact absurd rfl ht
    | cons a l => rfl
  simp only [hemp, Bool.false_eq_true, if_false, if_true]
  rw [fibLoop_eq ht ((getText d).length + 2) 0 (by omega)]
  rw [List.mem_map]
  have hzero : (0 : Int).toNat = 0 := rfl
  rw [hzero]
  constructor
  · rintro ⟨x, hx, hfx⟩
    rw [findAux_mem ht ((getText d).length + 2) 0 (by omega) x] at hx
    rw [Prod.mk.injEq] at hfx
    obtain ⟨rfl, rfl⟩ := hfx
    exact ⟨hx.2, rfl⟩
  · rintro ⟨hocc, rfl⟩
    refine ⟨i, ?_, rfl⟩
    rw [findAux_mem ht ((getText d).length + 2) 0 (by omega) i]
    exact ⟨Nat.zero_le _, hocc⟩

/-- Witness for c2_amended at concrete inputs. -/
theorem c2_amended_witness :
    ("aa".toList ≠ ([] : List Char))
    ∧ ((1 ∈ StringObject.find soAAA ("aa".toList)
          ↔ occursAtB soAAA.content ("aa".toList) 1 = true)
      ∧ ((1, 2) ∈ findInBody docAAA ("aa".toList) 0 (-1)
          ↔ (occursAtB (getText docAAA) ("aa".toList) 1 = true
              ∧ 2 = 1 + ("aa".toList).length - 1))
      ∧ StringObject.find soAAA [] = []
      ∧ findInBody docAAA [] 0 (-1) = []) :=
  ⟨by decide, c2_amended soAAA docAAA ("aa".toList) (by decide) 1 2⟩

/-- C3 (counterexample): starting from the plain one-run document "abc",
toggling LOWERSCRIPT over the whole range and then SUPERSCRIPT over the same
range yields a run with BOTH lowerscript and superscript set — applying
SUPERSCRIPT while lowerscript is set does not clear lowerscript. -/
theorem c3_counterexample :
    ((switchFormattingE docA 0 2 FormattingType.lowerscript).bind
        (fun d => switchFormattingE d 0 2 FormattingType.superscript)).map
      (fun d => d.content.map (fun p => (p.lowerscript, p.superscript)))
      = Except.ok [(true, true)] := rfl

/-- C3 (amended): Paragraph.switch_formatting toggles `lowerscript` and
`superscript` independently — toggling one leaves the other unchanged, with
no mutual exclusion. -/
theorem c3_amended (p : Paragraph) :
    (switchFmt p FormattingType.superscript).lowerscript = p.lowerscript
      ∧ (switchFmt p FormattingType.superscript).superscript = !p.superscript
      ∧ (switchFmt p FormattingType.lowerscript).superscript = p.superscript
      ∧ (switchFmt p FormattingType.lowerscript).lowerscript = !p.lowerscript :=
  ⟨rfl, rfl, rfl, rfl⟩

/-- C4 (counterexample): load is a successful mutating operation, but loading
a snapshot whose stored indices are wrong leaves the partition invariant
false — load never recomputes the indices. -/
theorem c4_counterexample :
    partitionInvB (loadSnapshot docA [mkPara 4 3 4 "xy" false]).content = false := rfl

/-- C4 (amended): the partition invariant holds after every successful
insert_at_index and switch_formatting, and delete preserves it; after load
it holds only when the snapshot's stored indices already satisfy it. -/
theorem c4_amended (d : Document) (t : List Char) (i s e : Int) (k : FormattingType)
    (snap : List Paragraph) (r1 r2 : Document)
    (h1 : insertAtIndexE d t i = Except.ok r1)
    (h2 : switchFormattingE d s e k = Except.ok r2)
    (hd : partitionInvB d.content = true)
    (hs : partitionInvB snap = true) :
    partitionInvB r1.content = true
      ∧ partitionInvB (deleteD d s e).content = true
      ∧ partitionInvB r2.content = true
      ∧ partitionInvB (loadSnapshot d snap).content = true :=
  ⟨partitionInvB_insert h1, partitionInvB_delete d s e hd, partitionInvB_switch h2, hs⟩

/-- Result of inserting "x" at index 1 into docA. -/
def c4r1 : Document := mkDoc [mkPara 0 0 3 "axbc" false] 1

/-- Result of switchFormatting(0, 1, BOLD) on docA. -/
def c4r2 : Document := mkDoc [mkPara 0 0 1 "ab" true, mkPara 2 2 2 "c" false] 3

/-- A well-indexed single-run snapshot. -/
def c4snap : List Paragraph := [mkPara 7 0 1 "hi" false]

/-- Witness for c4_amended at concrete inputs. -/
theorem c4_amended_witness :
    (insertAtIndexE docA ("x".toList) 1 = Except.ok c4r1
      ∧ switchFormattingE docA 0 1 FormattingType.bold = Except.ok c4r2
      ∧ partitionInvB docA.content = true
      ∧ partitionInvB c4snap = true)
    ∧ (partitionInvB c4r1.content = true
      ∧ partitionInvB (deleteD docA 0 1).content = true
      ∧ partitionInvB c4r2.content = true
      ∧ partitionInvB (loadSnapshot docA c4snap).content = true) :=
  ⟨⟨rfl, rfl, rfl, rfl⟩,
    c4_amended docA ("x".toList) 1 0 1 FormattingType.bold c4snap c4r1 c4r2 rfl rfl rfl rfl⟩

/-- C5 (counterexample): with total length 3, the out-of-range call
switchFormatting(5, 7, BOLD) does not fail with an index error — it succeeds
and returns the document unchanged. -/
theorem c5_counterexample :
    switchFormattingE docA 5 7 FormattingType.bold = Except.ok docA := rfl

/-- C5 (amended): switch_formatting performs no bounds check and never
raises an index error: on a well-indexed, coalesced document, a range lying
entirely at or beyond totalLength is a silent no-op that returns the
document unchanged. -/
theorem c5_amended (d : Document) (s e : Int) (k : FormattingType)
    (hrec : recalc d.content = d.content)
    (hjoin : joinRuns d.content = d.content)
    (hs : (totalLenOf d.content : Int) ≤ s) (hse : s ≤ e) :
    switchFormattingE d s e k = Except.ok d := by
  have hskip : ∀ p ∈ d.content,
      ¬((p.start_index ≤ s ∧ s ≤ p.end_index) ∨ (e ≤ p.end_index ∧ p.start_index ≤ e)) := by
    intro p hp
    have hp' : p ∈ recalcGo 0 d.content := by
      show p ∈ recalc d.content
      rw [hrec]; exact hp
    obtain ⟨-, -, hlt⟩ := recalcGo_start_mem d.content 0 p hp'
    rintro (⟨-, h2⟩ | ⟨h1, -⟩) <;> omega
  unfold switchFormattingE
  rw [switchFold_skip _ _ _ _ _ hskip]
  have h1 : joinParagraphs d.content = d.content := by
    unfold joinParagraphs
    by_cases hc : d.content.isEmpty
    · simp [hc]
    · simp only [hc, Bool.false_eq_true, if_false]
      rw [hjoin]
      exact hrec
  dsimp only
  rw [h1, hrec]

/-- Witness for c5_amended at concrete inputs. -/
theorem c5_amended_witness :
    (recalc docA.content = docA.content ∧ joinRuns docA.content = docA.content
      ∧ (totalLenOf docA.content : Int) ≤ 4 ∧ (4 : Int) ≤ 6)
    ∧ switchFormattingE docA 4 6 FormattingType.bold = Except.ok docA :=
  ⟨⟨rfl, rfl, by decide, by decide⟩,
    c5_amended docA 4 6 FormattingType.bold rfl rfl (by decide) (by decide)⟩

/-- C6 (counterexample): loading a snapshot whose single run stores
start_index 5 / end_index 9 for the two-character content "ab" leaves those
indices in place, and the partition invariant fails after the load. -/
theorem c6_counterexample :
    partitionInvB (loadSnapshot docA [mkPara 7 5 9 "ab" false]).content = false := rfl

/-- C6 (amended): load installs the snapshot's run records verbatim — the
persisted start_index/end_index fields are trusted, nothing is recomputed,
so the partition invariant holds after load exactly when the snapshot's
stored indices already satisfy it. -/
theorem c6_amended (d : Document) (snap : List Paragraph) :
    (loadSnapshot d snap).content = snap
      ∧ partitionInvB (loadSnapshot d snap).content = partitionInvB snap :=
  ⟨rfl, rfl⟩

/-- C7 (counterexample): a document holding two adjacent runs with identical
formatting (reachable by loading such a snapshot) is serialized by save
verbatim — the written snapshot still contains the adjacent
identical-formatting pair, so save applied no coalescing. -/
theorem c7_counterexample :
    hasAdjacentMergeableB
      (saveSnapshot (loadSnapshot docA [mkPara 1 0 0 "x" false, mkPara 2 1 1 "y" false]))
      = true := rfl

/-- C7 (amended): save serializes the run sequence verbatim, applying no
coalescing at all; the snapshot is free of adjacent identical-formatting
runs exactly when the in-memory run sequence already is. -/
theorem c7_amended (d : Document) :
    saveSnapshot d = d.content
      ∧ hasAdjacentMergeableB (saveSnapshot d) = hasAdjacentMergeableB d.content :=
  ⟨rfl, rfl⟩

/-- C8 (code_bug evaluation): on the one-run document "Hello world",
applying switchFormatting(6, 10, BOLD) twice yields the text "worldello H"
instead of restoring "Hello world": switch_style_within_paragraph inserts
the kept prefix AFTER the toggled middle, scrambling the document order. -/
theorem c8_code_eval :
    ((switchFormattingE docHW 6 10 FormattingType.bold).bind
        (fun d => switchFormattingE d 6 10 FormattingType.bold)).map getText
      = Except.ok ("worldello H".toList)
      ∧ "worldello H".toList ≠ getText docHW :=
  ⟨rfl, by decide⟩

/-- C9 (confirmed): delete returns immediately, without touching the run
sequence, whenever globalStart > globalEnd. -/
theorem c9_confirmed (d : Document) (s e : Int) (h : e < s) : deleteD d s e = d := by
  unfold deleteD
  rw [if_pos (by omega)]

/-- Witness for c9_confirmed at concrete inputs. -/
theorem c9_confirmed_witness :
    (2 : Int) < 5 ∧ deleteD docA 5 2 = docA :=
  ⟨by decide, c9_confirmed docA 5 2 (by decide)⟩

/-- C10 (confirmed): on a non-empty well-indexed document a negative global
index matches no run (all start indices are non-negative), so insert_at_index
falls back to the last run, clamps to its end, succeeds without raising, and
appends the text at the end of the document. -/
theorem c10_confirmed (d : Document) (t : List Char) (i : Int)
    (hne : d.content ≠ []) (hrec : recalc d.content = d.content) (hi : i < 0) :
    (insertAtIndexE d t i).map getText = Except.ok (getText d ++ t) := by
  have hemp : d.content.isEmpty = false := by
    cases hc : d.content with
    | nil => exact absurd hc hne
    | cons p ps => rfl
  unfold insertAtIndexE
  rw [hemp]
  simp only [Bool.false_eq_true, if_false]
  unfold insertCore
  have hnone : findWithIdx?
      (fun p => decide (p.start_index ≤ i) && decide (i ≤ p.end_index + 1)) d.content
      = none := by
    apply findWithIdx?_eq_none
    intro p hp
    have h0 := (mem_rec_facts hrec hp).1
    have hfalse : decide (p.start_index ≤ i) = false := by
      simp only [decide_eq_false_iff_not]
      omega
    rw [hfalse, Bool.false_and]
  rw [hnone]
  rw [List.getLast?_eq_getLast _ hne]
  dsimp only
  have hmem : d.content.getLast hne ∈ d.content := List.getLast_mem hne
  obtain ⟨-, hend, -⟩ := mem_rec_facts hrec hmem
  have hip : (d.content.getLast hne).end_index + 1 - (d.content.getLast hne).start_index
      = ((d.content.getLast hne).content.length : Int) := by omega
  rw [hip, pyInsert_at_length]
  rw [set_last _ _ hne]
  simp only [Except.map]
  show Except.ok (getText { d with content := recalc (joinParagraphs
      (d.content.dropLast ++
        [{ d.content.getLast hne with
            content := (d.content.getLast hne).content ++ t }])) })
    = Except.ok (getText d ++ t)
  unfold getText
  rw [textOf_recalc, textOf_joinParagraphs, textOf_append]
  have hsplit : textOf d.content = textOf d.content.dropLast
      ++ (d.content.getLast hne).content := by
    conv_lhs => rw [← List.dropLast_append_getLast hne]
    rw [textOf_append]
    simp [textOf]
  rw [hsplit]
  simp [textOf]

/-- Witness for c10_confirmed at concrete inputs. -/
theorem c10_confirmed_witness :
    (docA.content ≠ [] ∧ recalc docA.content = docA.content ∧ (-3 : Int) < 0)
    ∧ (insertAtIndexE docA ("z".toList) (-3)).map getText
        = Except.ok (getText docA ++ "z".toList) :=
  ⟨⟨by decide, rfl, by decide⟩,
    c10_confirmed docA ("z".toList) (-3) (by decide) rfl (by decide)⟩

end WordProcessor
